import Mathlib

/-!
# Verification of `locomote-sh/fileglob` (src/lib/fileglob.js)

This development gives a shallow embedding of the fileglob library:

* the glob-to-regex compiler of `FileGlob` (the character loop of
  `function FileGlob(glob)`), translated to `globPatternAux`;
* a model of the JavaScript `RegExp` constructor and `RegExp.prototype.test`
  on the syntax fragment reachable from generated patterns
  (`parseRegex`, `jsTest`): `new RegExp(pattern)` can throw a `SyntaxError`,
  which is modelled by `Except`;
* the set classes `FileGlobSet`, `Compliment`, `Union`, the empty base set,
  and the factory functions `make`, `makeSet`, `makeCompliment`, `makeUnion`.

JavaScript regular expressions are matched with a backtracking search;
for the boolean `test` only matchability matters, which is captured by a
Brzozowski-derivative style matcher extended with positional flags so that
the assertions `^` and `$` (which occur in every generated pattern, and may
also be injected mid-pattern by glob characters passed through literally)
are handled: every state knows whether the current position is the start
and/or the end of the subject string.
-/

namespace Fileglob

/-- One member of a regex character class: a single character or an
inclusive range `lo-hi` (compared by code point, as in JavaScript). -/
inductive CItem where
  | single (c : Char)
  | range (lo hi : Char)
deriving DecidableEq, Repr

/-- Regular expression AST for the fragment of JavaScript regex syntax
reachable from patterns generated by the glob compiler.  `aStart` and
`aEnd` are the assertions `^` and `$` (the pattern is compiled without
flags, so they mean start/end of the whole subject string). -/
inductive Regex where
  | void
  | eps
  | char (c : Char)
  | cls (neg : Bool) (items : List CItem)
  | seq (r1 r2 : Regex)
  | alt (r1 r2 : Regex)
  | star (r : Regex)
  | aStart
  | aEnd
deriving DecidableEq, Repr

/-- Does one class item contain the character `c`? -/
def citemHas (c : Char) : CItem → Bool
  | .single c' => c = c'
  | .range lo hi => lo ≤ c && c ≤ hi

/-- Does the character class (with negation flag `neg`) match `c`?
JavaScript `[...]` matches a character in the listed set, `[^...]` a
character outside it. -/
def clsMatch (neg : Bool) (items : List CItem) (c : Char) : Bool :=
  if neg then !(items.any (citemHas c)) else items.any (citemHas c)

/-- Can `r` match the empty string at a position with the given flags?
`st` is true iff the position is the start of the subject string, `en`
iff it is the end.  The assertions consume nothing and just test the
flags. -/
def nullableAt (st en : Bool) : Regex → Bool
  | .void => false
  | .eps => true
  | .char _ => false
  | .cls _ _ => false
  | .seq r1 r2 => nullableAt st en r1 && nullableAt st en r2
  | .alt r1 r2 => nullableAt st en r1 || nullableAt st en r2
  | .star _ => true
  | .aStart => st
  | .aEnd => en

/-- Brzozowski derivative with positional flags: `deriv st c r` matches
`s` (starting at a non-start position) iff `r` matches `c :: s` starting
at a position whose start flag is `st`.  Consuming a character means the
position is not the end, hence `nullableAt st false` in the `seq` case. -/
def deriv (st : Bool) (c : Char) : Regex → Regex
  | .void => .void
  | .eps => .void
  | .char c' => if c' = c then .eps else .void
  | .cls neg items => if clsMatch neg items c then .eps else .void
  | .seq r1 r2 =>
      .alt (.seq (deriv st c r1) r2)
        (if nullableAt st false r1 then deriv st c r2 else .void)
  | .alt r1 r2 => .alt (deriv st c r1) (deriv st c r2)
  | .star r => .seq (deriv st c r) (.star r)
  | .aStart => .void
  | .aEnd => .void

/-- Does some prefix of `s` match `r`, the match beginning at the current
position?  `st` says whether the current position is the start of the
subject string; the end of `s` is the end of the subject string. -/
def matchHere (st : Bool) (r : Regex) : List Char → Bool
  | [] => nullableAt st true r
  | c :: s => nullableAt st false r || matchHere false (deriv st c r) s

/-- Does a match of `r` begin at the current position or at any later
position of `s`? -/
def matchFrom (st : Bool) (r : Regex) : List Char → Bool
  | [] => matchHere st r []
  | c :: s => matchHere st r (c :: s) || matchFrom false r s

/-- Model of JavaScript `re.test(path)`: search for a match anywhere in
the subject string. -/
def jsTest (r : Regex) (s : List Char) : Bool :=
  matchFrom true r s

/-- Right-nested concatenation of a list of regexes (empty list is `ε`). -/
def buildSeq : List Regex → Regex
  | [] => .eps
  | r :: rest => .seq r (buildSeq rest)

/-- Fold a list of alternatives (in order) around a final alternative. -/
def altFoldr : List Regex → Regex → Regex
  | [], last => last
  | r :: rest, last => .alt r (altFoldr rest last)

/-- What the previous term of the current alternative was, used to decide
whether a quantifier character may apply (JavaScript rejects a quantifier
with nothing to repeat, a quantifier on `^`/`$`, and a doubled
quantifier; `?` directly after a quantifier is the lazy modifier). -/
inductive LastK where
  | start
  | atom
  | assrt
  | quant
  | lazyq
deriving DecidableEq, Repr

/-- Parser mode: normal scanning, after a backslash, inside a character
class (just opened / in the body / after a backslash in the body), or
inside a braced quantifier candidate (before / after the comma).  In the
class modes `pend` is a character read but not yet committed (it may
become the lower end of a range) and `dash` records a `-` read after
`pend`. -/
inductive PMode where
  | norm
  | esc
  | clsNew (neg : Bool)
  | clsBody (neg : Bool) (items : List CItem) (pend : Option Char) (dash : Bool)
  | clsEsc (neg : Bool) (items : List CItem) (pend : Option Char) (dash : Bool)
  | brace1 (digits : List Char)
  | brace2 (d1 digits : List Char)
deriving DecidableEq, Repr

/-- Parser state: saved `(alts, seqRev)` pairs for open groups, the
completed alternatives of the current level (reversed), the terms of the
current alternative (reversed), the kind of the last term, and the mode. -/
structure PSt where
  stack : List (List Regex × List Regex)
  alts : List Regex
  seqRev : List Regex
  lastK : LastK
  mode : PMode
deriving Repr

/-- Append a completed atom to the current alternative. -/
def pushAtom (st : PSt) (r : Regex) : PSt :=
  { st with seqRev := r :: st.seqRev, lastK := .atom, mode := .norm }

/-- Apply a quantifier to the last atom of the current alternative. -/
def applyQuant (st : PSt) (f : Regex → Regex) : Except String PSt :=
  match st.seqRev with
  | a :: rest => .ok { st with seqRev := f a :: rest, lastK := .quant, mode := .norm }
  | [] => .error "Nothing to repeat"

/-- `n`-fold repetition of a regex. -/
def repCount (r : Regex) (n : Nat) : Regex :=
  buildSeq (List.replicate n r)

/-- The regex denoted by a braced quantifier applied to atom `a`:
`{n}`, `{n,}` or `{n,m}` (the latter rejected when `m < n`, as in
JavaScript). -/
def braceRegex (a : Regex) (n : Nat) : Option (Option Nat) → Except String Regex
  | none => .ok (repCount a n)
  | some none => .ok (.seq (repCount a n) (.star a))
  | some (some m) =>
      if n ≤ m then .ok (.seq (repCount a n) (repCount (.alt a .eps) (m - n)))
      else .error "numbers out of order in quantifier"

/-- Decimal value of a digit string. -/
def digitsToNat (ds : List Char) : Nat :=
  ds.foldl (fun acc d => acc * 10 + (d.toNat - 48)) 0

/-- Re-emit raw characters as literal atoms (a braced-quantifier
candidate that turned out not to be a quantifier is literal text in
JavaScript Annex B). -/
def flushChars (st : PSt) (cs : List Char) : PSt :=
  { st with
      seqRev := (cs.map Regex.char).reverse ++ st.seqRev
      lastK := .atom
      mode := .norm }

/-- Class items of `\d`. -/
def digitItems : List CItem := [.range '0' '9']

/-- Class items of `\w`. -/
def wordItems : List CItem :=
  [.range 'a' 'z', .range 'A' 'Z', .range '0' '9', .single '_']

/-- Class items of `\s` (ASCII subset; the Unicode space characters that
JavaScript also includes cannot occur in the claims considered here). -/
def spaceItems : List CItem :=
  [.single ' ', .single '\t', .single '\n', .single '\r',
   .single '\x0b', .single '\x0c']

/-- Line terminators excluded by `.` in JavaScript. -/
def lineTerms : List CItem :=
  [.single '\n', .single '\r', .single ' ', .single ' ']

/-- Resolve an escape sequence `\c` outside a character class.  Escapes
not needed for patterns reachable from the claims (back references,
word boundaries, control/hex/unicode escapes) are modelled as errors. -/
def escRegex (c : Char) : Except String Regex :=
  if c = 'n' then .ok (.char '\n')
  else if c = 't' then .ok (.char '\t')
  else if c = 'r' then .ok (.char '\r')
  else if c = 'f' then .ok (.char '\x0c')
  else if c = 'v' then .ok (.char '\x0b')
  else if c = 'd' then .ok (.cls false digitItems)
  else if c = 'D' then .ok (.cls true digitItems)
  else if c = 'w' then .ok (.cls false wordItems)
  else if c = 'W' then .ok (.cls true wordItems)
  else if c = 's' then .ok (.cls false spaceItems)
  else if c = 'S' then .ok (.cls true spaceItems)
  else if c.isDigit then .error "unmodelled escape"
  else if c = 'b' || c = 'B' || c = 'c' || c = 'x' || c = 'u' || c = 'k' then
    .error "unmodelled escape"
  else .ok (.char c)

/-- Resolve an escape sequence `\c` inside a character class to the class
items it denotes. -/
def clsEscItems (c : Char) : Except String (List CItem) :=
  if c = 'n' then .ok [.single '\n']
  else if c = 't' then .ok [.single '\t']
  else if c = 'r' then .ok [.single '\r']
  else if c = 'f' then .ok [.single '\x0c']
  else if c = 'v' then .ok [.single '\x0b']
  else if c = 'b' then .ok [.single '\x08']
  else if c = 'd' then .ok digitItems
  else if c = 'w' then .ok wordItems
  else if c = 's' then .ok spaceItems
  else if c = 'D' || c = 'S' || c = 'W' then .error "unmodelled class escape"
  else if c.isDigit then .error "unmodelled class escape"
  else if c = 'c' || c = 'x' || c = 'u' then .error "unmodelled class escape"
  else .ok [.single c]

/-- Add a literal character to a class body: it closes a pending range,
or becomes the new pending character. -/
def clsAddChar (st : PSt) (neg : Bool) (items : List CItem)
    (pend : Option Char) (dash : Bool) (c : Char) : Except String PSt :=
  match pend, dash with
  | some p, true =>
      if p ≤ c then
        .ok { st with mode := .clsBody neg (items ++ [.range p c]) none false }
      else .error "Range out of order in character class"
  | some p, false =>
      .ok { st with mode := .clsBody neg (items ++ [.single p]) (some c) false }
  | none, _ =>
      .ok { st with mode := .clsBody neg items (some c) false }

/-- Commit the pending pieces of a class body and close it into an atom. -/
def closeCls (st : PSt) (neg : Bool) (items : List CItem)
    (pend : Option Char) (dash : Bool) : PSt :=
  let items := items ++ (match pend with | some p => [CItem.single p] | none => [])
  let items := items ++ (if dash then [CItem.single '-'] else [])
  pushAtom st (.cls neg items)

/-- One parser step in normal mode.  Follows the JavaScript (Annex B)
pattern grammar on the fragment reachable from generated patterns:
groups, alternation, the `^`/`$` assertions, character classes, escapes,
quantifiers (with "nothing to repeat" errors), lone `]`/`{`/`}` as
literals, `.` as the any-but-line-terminator class, everything else a
literal character. -/
def normStep (c : Char) (st : PSt) : Except String PSt :=
  if c = '(' then
    .ok { stack := (st.alts, st.seqRev) :: st.stack, alts := [], seqRev := [],
          lastK := .start, mode := .norm }
  else if c = ')' then
    match st.stack with
    | [] => .error "Unmatched close parenthesis"
    | (palts, pseq) :: rest =>
        let group := altFoldr st.alts.reverse (buildSeq st.seqRev.reverse)
        .ok { stack := rest, alts := palts, seqRev := group :: pseq,
              lastK := .atom, mode := .norm }
  else if c = '|' then
    .ok { st with
            alts := buildSeq st.seqRev.reverse :: st.alts
            seqRev := []
            lastK := .start
            mode := .norm }
  else if c = '^' then
    .ok { st with seqRev := .aStart :: st.seqRev, lastK := .assrt, mode := .norm }
  else if c = '$' then
    .ok { st with seqRev := .aEnd :: st.seqRev, lastK := .assrt, mode := .norm }
  else if c = '[' then
    .ok { st with mode := .clsNew false }
  else if c = '\\' then
    .ok { st with mode := .esc }
  else if c = '*' then
    if st.lastK = .atom then applyQuant st .star else .error "Nothing to repeat"
  else if c = '+' then
    if st.lastK = .atom then applyQuant st (fun a => .seq a (.star a))
    else .error "Nothing to repeat"
  else if c = '?' then
    if st.lastK = .atom then applyQuant st (fun a => .alt a .eps)
    else if st.lastK = .quant then .ok { st with lastK := .lazyq, mode := .norm }
    else .error "Nothing to repeat"
  else if c = '\x7b' then
    .ok { st with mode := .brace1 [] }
  else if c = '.' then
    .ok (pushAtom st (.cls true lineTerms))
  else
    .ok (pushAtom st (.char c))

/-- One parser step, dispatching on the mode. -/
def stepChar (c : Char) (st : PSt) : Except String PSt :=
  match st.mode with
  | .norm => normStep c st
  | .esc =>
      match escRegex c with
      | .ok r => .ok (pushAtom st r)
      | .error e => .error e
  | .clsNew neg =>
      if c = '^' && neg = false then .ok { st with mode := .clsNew true }
      else if c = ']' then .ok (closeCls st neg [] none false)
      else if c = '\\' then .ok { st with mode := .clsEsc neg [] none false }
      else .ok { st with mode := .clsBody neg [] (some c) false }
  | .clsBody neg items pend dash =>
      if c = ']' then .ok (closeCls st neg items pend dash)
      else if c = '\\' then .ok { st with mode := .clsEsc neg items pend dash }
      else if c = '-' then
        match pend, dash with
        | some p, true => clsAddChar st neg items (some p) true '-'
        | some _, false => .ok { st with mode := .clsBody neg items pend true }
        | none, _ => .ok { st with mode := .clsBody neg items (some '-') false }
      else clsAddChar st neg items pend dash c
  | .clsEsc neg items pend dash =>
      match clsEscItems c with
      | .error e => .error e
      | .ok [CItem.single c'] => clsAddChar st neg items pend dash c'
      | .ok its =>
          let items := items ++ (match pend with | some p => [CItem.single p] | none => [])
          let items := items ++ (if dash then [CItem.single '-'] else [])
          .ok { st with mode := .clsBody neg (items ++ its) none false }
  | .brace1 digits =>
      if c.isDigit then .ok { st with mode := .brace1 (digits ++ [c]) }
      else if c = ',' then
        if digits = [] then .ok (flushChars st ['\x7b', ','])
        else .ok { st with mode := .brace2 digits [] }
      else if c = '\x7d' then
        if digits = [] then .ok (flushChars st ['\x7b', '\x7d'])
        else if st.lastK = .atom then
          match st.seqRev with
          | a :: rest =>
              match braceRegex a (digitsToNat digits) none with
              | .ok r => .ok { st with seqRev := r :: rest, lastK := .quant, mode := .norm }
              | .error e => .error e
          | [] => .error "Nothing to repeat"
        else .error "Nothing to repeat"
      else normStep c (flushChars st ('\x7b' :: digits))
  | .brace2 d1 digits =>
      if c.isDigit then .ok { st with mode := .brace2 d1 (digits ++ [c]) }
      else if c = '\x7d' then
        if st.lastK = .atom then
          match st.seqRev with
          | a :: rest =>
              let hi := if digits = [] then none else some (digitsToNat digits)
              match braceRegex a (digitsToNat d1) (some hi) with
              | .ok r => .ok { st with seqRev := r :: rest, lastK := .quant, mode := .norm }
              | .error e => .error e
          | [] => .error "Nothing to repeat"
        else .error "Nothing to repeat"
      else normStep c (flushChars st ('\x7b' :: d1 ++ ',' :: digits))

/-- Close the whole pattern: pending braced-quantifier candidates flush
to literal text, other non-normal modes are syntax errors, and an open
group is a syntax error. -/
def finishSt (st : PSt) : Except String Regex :=
  match st.mode with
  | .brace1 ds => finishNorm (flushChars st ('\x7b' :: ds))
  | .brace2 d1 ds => finishNorm (flushChars st ('\x7b' :: d1 ++ ',' :: ds))
  | .norm => finishNorm st
  | .esc => .error "Pattern ends with a backslash"
  | _ => .error "Unterminated character class"
where
  /-- Fold the accumulated alternatives, rejecting an open group. -/
  finishNorm (st : PSt) : Except String Regex :=
    match st.stack with
    | [] => .ok (altFoldr st.alts.reverse (buildSeq st.seqRev.reverse))
    | _ :: _ => .error "Unterminated group"

/-- Run the parser over the pattern characters. -/
def parseLoop : List Char → PSt → Except String Regex
  | [], st => finishSt st
  | c :: cs, st =>
      match stepChar c st with
      | .ok st' => parseLoop cs st'
      | .error e => .error e

/-- The initial parser state. -/
def initSt : PSt := ⟨[], [], [], .start, .norm⟩

/-- Model of `new RegExp(pattern)` (no flags): parse the pattern,
throwing (`Except.error`) on the syntax errors JavaScript throws on. -/
def parseRegex (pattern : List Char) : Except String Regex :=
  parseLoop pattern initSt

/-!
## The glob compiler (`function FileGlob(glob)`)

The loop in the source scans the glob left to right:

* `'*'` with lookahead `glob[i+1] == '*' && glob[i+2] == '/'` emits
  `([^/]*/)*` and skips two extra characters;
* otherwise `'*'` emits `[^/]*`;
* `'?'` emits `[^/]`;
* `'.'` emits `\.`;
* any other character is appended to the pattern unchanged.

Indexing past the end of the string yields `undefined` in JavaScript,
which compares unequal to `'*'`/`'/'`; the ordered pattern matches below
reproduce that lookahead exactly. -/

/-- The pattern-building loop of `FileGlob`, on the glob's characters:
the if-chain of the source on the current character `ch`, with the inner
lookahead `glob[i+1] == '*' && glob[i+2] == '/'` as a match on the tail
(the skip `i += 2` drops those two characters). -/
def globPatternAux : List Char → List Char
  | '*' :: '*' :: '/' :: rest => "([^/]*/)*".data ++ globPatternAux rest
  | '*' :: rest => "[^/]*".data ++ globPatternAux rest
  | '?' :: rest => "[^/]".data ++ globPatternAux rest
  | '.' :: rest => "\\.".data ++ globPatternAux rest
  | c :: rest => c :: globPatternAux rest
  | [] => []

/-- `pattern = '^' + pattern + '$'` in the source: the generated pattern
is anchored at both ends. -/
def globPattern (g : List Char) : List Char :=
  '^' :: globPatternAux g ++ ['$']

/-- A compiled file glob: wraps the compiled regex (`let re = new
RegExp(pattern)` in the source). -/
structure FileGlob where
  re : Regex
deriving DecidableEq, Repr

/-- `new FileGlob(glob)` for a string argument.  `new RegExp(pattern)`
can throw a `SyntaxError`, so construction is fallible. -/
def FileGlob.ofChars (g : List Char) : Except String FileGlob :=
  (parseRegex (globPattern g)).map FileGlob.mk

/-- `make(glob)`: `return new FileGlob(glob)`. -/
def make (glob : String) : Except String FileGlob :=
  FileGlob.ofChars glob.data

/-- `new FileGlob(x)` for a non-string argument `x` (it happens when
`makeSet` receives a value that is neither `undefined`, a `Set`, nor an
array, e.g. a `FileGlob`): `x.length` is `undefined`, `i < undefined` is
false, so the loop body never runs and the pattern is `^$` — the same
result as compiling the empty glob. -/
def FileGlob.ofNonString : Except String FileGlob :=
  FileGlob.ofChars []

/-- `matches(path)` of a compiled file glob: `return re.test(path)`. -/
def FileGlob.matches (fg : FileGlob) (path : String) : Bool :=
  jsTest fg.re path.data

/-- `filter(list)` of a compiled file glob. -/
def FileGlob.filter (fg : FileGlob) (list : List String) : List String :=
  list.filter fun path => fg.matches path

/-- Convenience for stating results: what `make(g).matches(p)` yields,
`none` when compilation throws. -/
def fgMatch (g p : String) : Option Bool :=
  (make g).toOption.map fun fg => fg.matches p

/-!
## The matchable-set classes

The source builds a prototype hierarchy on `function Set() {}` whose
prototype has `matches` returning `false` and `filter` returning `[]`.
`EmptySet = new Set()` is the shared base instance; `FileGlobSet`,
`Compliment` and `Union` override both methods on their instances.  The
variants form the sum type below; `emptySet` is the base `Set` instance
with the prototype's methods. -/

/-- The matchable-set variants (`EmptySet`, `FileGlobSet(globs)`,
`Compliment(includes, excludes)`, `Union(sets)`).  A `FileGlobSet`
owns its compiled `FileGlob`s. -/
inductive MSet where
  | emptySet
  | fileGlobSet (fglobs : List FileGlob)
  | compliment (includes excludes : MSet)
  | union (sets : List MSet)
deriving Repr

mutual

/-- `matches(path)` of each variant: the prototype's `return false` for
the empty set; "some compiled glob matches" for `FileGlobSet`;
`includes.matches(path) && !excludes.matches(path)` for `Compliment`;
"some member set matches" for `Union`. -/
def MSet.matches : MSet → String → Bool
  | .emptySet, _ => false
  | .fileGlobSet fglobs, path => fglobs.any fun fg => fg.matches path
  | .compliment includes excludes, path =>
      includes.matches path && !(excludes.matches path)
  | .union sets, path => MSet.anyMatches sets path

/-- `sets.some(set => set.matches(path))` of `Union`, unfolded over the
list so the recursion is structural. -/
def MSet.anyMatches : List MSet → String → Bool
  | [], _ => false
  | s :: rest, path => s.matches path || MSet.anyMatches rest path

end

/-- `filter(list)` of each variant: the prototype's `return []` for the
empty set; every other variant filters the list with its own
`matches`. -/
def MSet.filter : MSet → List String → List String
  | .emptySet, _ => []
  | s, list => list.filter fun path => s.matches path

/-!
## Factory functions

`makeSet`'s argument is dynamically typed in JavaScript: it may be
`undefined`, an already-built set (`x instanceof Set`), a string, an
array of strings, or any other value (the case relevant to the claims
being a `FileGlob` returned by `make`).  `ArgVal` is that universe of
argument values. -/

/-- The possible arguments of `makeSet` (and of `makeUnion`'s and
`makeCompliment`'s per-argument normalization). -/
inductive ArgVal where
  | undef
  | str (s : String)
  | strList (l : List String)
  | set (s : MSet)
  | fglob (fg : FileGlob)

/-- `isaSet(x)`: `x instanceof Set`.  The set variants all have `Set` on
their prototype chain (`FileGlobSet.prototype = EmptySet`,
`Compliment.prototype = EmptySet`, `Union.prototype = new Set()`), and
`EmptySet` itself is a `new Set()`.  `FileGlob` never sets its
prototype, so a compiled matcher is *not* an instance of `Set`; neither
is a string, an array, or `undefined`. -/
def isaSet : ArgVal → Bool
  | .set _ => true
  | _ => false

/-- `makeSet(globs)`: `undefined` gives the empty set; an existing set
is returned unchanged; a non-array is wrapped in a one-element array;
the resulting array is compiled element-wise by `new FileGlobSet(globs)`
(each element through `new FileGlob`, which for the non-string elements
of the `fglob` case compiles the pattern `^$`). -/
def makeSet : ArgVal → Except String MSet
  | .undef => .ok .emptySet
  | .set s => .ok s
  | .str s => (FileGlob.ofChars s.data).map fun fg => .fileGlobSet [fg]
  | .strList l =>
      (l.mapM fun s => FileGlob.ofChars s.data).map fun fgs => .fileGlobSet fgs
  | .fglob _ => FileGlob.ofNonString.map fun fg => .fileGlobSet [fg]

/-- `makeCompliment(includes, excludes)`: both arguments normalized
through `makeSet`, then wrapped in a `Compliment`. -/
def makeCompliment (includes excludes : ArgVal) : Except String MSet := do
  let i ← makeSet includes
  let e ← makeSet excludes
  return .compliment i e

/-- `makeUnion(...)`: every (variadic) argument normalized through
`makeSet`, the results wrapped in a `Union`. -/
def makeUnion (args : List ArgVal) : Except String MSet :=
  (args.mapM makeSet).map fun sets => .union sets

/-!
## Declarative match semantics and correctness of the matcher

`PM r st en s` says: `r` matches exactly the segment `s` of the subject
string, where `st` tells whether the segment starts at the start of the
subject and `en` whether it ends at its end.  The assertions constrain
the flags; for a concatenation the flags at the interior position are
computed from the outer flags and the emptiness of the two parts. -/

/-- Positional match relation. -/
inductive PM : Regex → Bool → Bool → List Char → Prop where
  | eps : PM .eps st en []
  | char : PM (.char c) st en [c]
  | cls : clsMatch neg items c = true → PM (.cls neg items) st en [c]
  | seq : PM r1 st (en && s2.isEmpty) s1 → PM r2 (st && s1.isEmpty) en s2 →
      PM (.seq r1 r2) st en (s1 ++ s2)
  | altL : PM r1 st en s → PM (.alt r1 r2) st en s
  | altR : PM r2 st en s → PM (.alt r1 r2) st en s
  | starNil : PM (.star r) st en []
  | starCons : PM r st (en && s2.isEmpty) s1 → PM (.star r) (st && s1.isEmpty) en s2 →
      PM (.star r) st en (s1 ++ s2)
  | aStart : PM .aStart true en []
  | aEnd : PM .aEnd st true []

theorem PM_void_iff {st en : Bool} {s : List Char} : PM .void st en s ↔ False := by
  constructor
  · intro h; cases h
  · intro h; exact h.elim

theorem PM_eps_iff {st en : Bool} {s : List Char} : PM .eps st en s ↔ s = [] := by
  constructor
  · intro h; cases h; rfl
  · rintro rfl; exact .eps

theorem PM_char_iff {c : Char} {st en : Bool} {s : List Char} :
    PM (.char c) st en s ↔ s = [c] := by
  constructor
  · intro h; cases h; rfl
  · rintro rfl; exact .char

theorem PM_cls_iff {neg : Bool} {items : List CItem} {st en : Bool} {s : List Char} :
    PM (.cls neg items) st en s ↔ ∃ c, s = [c] ∧ clsMatch neg items c = true := by
  constructor
  · intro h; cases h with
    | cls hm => exact ⟨_, rfl, hm⟩
  · rintro ⟨c, rfl, hm⟩; exact .cls hm

theorem PM_seq_iff {r1 r2 : Regex} {st en : Bool} {s : List Char} :
    PM (.seq r1 r2) st en s ↔
      ∃ s1 s2, s = s1 ++ s2 ∧ PM r1 st (en && s2.isEmpty) s1 ∧
        PM r2 (st && s1.isEmpty) en s2 := by
  constructor
  · intro h; cases h with
    | seq h1 h2 => exact ⟨_, _, rfl, h1, h2⟩
  · rintro ⟨s1, s2, rfl, h1, h2⟩; exact .seq h1 h2

theorem PM_alt_iff {r1 r2 : Regex} {st en : Bool} {s : List Char} :
    PM (.alt r1 r2) st en s ↔ PM r1 st en s ∨ PM r2 st en s := by
  constructor
  · intro h; cases h with
    | altL h => exact .inl h
    | altR h => exact .inr h
  · rintro (h | h)
    · exact .altL h
    · exact .altR h

theorem PM_aStart_iff {st en : Bool} {s : List Char} :
    PM .aStart st en s ↔ st = true ∧ s = [] := by
  constructor
  · intro h; cases h; exact ⟨rfl, rfl⟩
  · rintro ⟨rfl, rfl⟩; exact .aStart

theorem PM_aEnd_iff {st en : Bool} {s : List Char} :
    PM .aEnd st en s ↔ en = true ∧ s = [] := by
  constructor
  · intro h; cases h; exact ⟨rfl, rfl⟩
  · rintro ⟨rfl, rfl⟩; exact .aEnd

/-- If `r` can match the empty string at flags `(st, en)`, the relation
holds on the empty segment. -/
theorem nullable_sound {st en : Bool} :
    ∀ {r : Regex}, nullableAt st en r = true → PM r st en [] := by
  intro r
  induction r with
  | void => intro h; simp [nullableAt] at h
  | eps => intro _; exact .eps
  | char c => intro h; simp [nullableAt] at h
  | cls neg items => intro h; simp [nullableAt] at h
  | seq r1 r2 ih1 ih2 =>
      intro h
      simp only [nullableAt, Bool.and_eq_true] at h
      have h1 : PM r1 st (en && List.isEmpty ([] : List Char)) [] := by
        simpa using ih1 h.1
      have h2 : PM r2 (st && List.isEmpty ([] : List Char)) en [] := by
        simpa using ih2 h.2
      have := PM.seq h1 h2
      simpa using this
  | alt r1 r2 ih1 ih2 =>
      intro h
      simp only [nullableAt, Bool.or_eq_true] at h
      rcases h with h | h
      · exact .altL (ih1 h)
      · exact .altR (ih2 h)
  | star r _ => intro _; exact .starNil
  | aStart => intro h; simp only [nullableAt] at h; subst h; exact .aStart
  | aEnd => intro h; simp only [nullableAt] at h; subst h; exact .aEnd

/-- Conversely, a match of the empty segment implies nullability. -/
theorem nullable_complete {r : Regex} {st en : Bool} {s : List Char}
    (h : PM r st en s) (hs : s = []) : nullableAt st en r = true := by
  induction h with
  | eps => simp [nullableAt]
  | char => simp at hs
  | cls _ => simp at hs
  | seq h1 h2 ih1 ih2 =>
      rcases List.append_eq_nil.mp hs with ⟨e1, e2⟩
      subst e1; subst e2
      simp only [nullableAt, Bool.and_eq_true]
      exact ⟨by simpa using ih1 rfl, by simpa using ih2 rfl⟩
  | altL h ih => simp only [nullableAt, Bool.or_eq_true]; exact .inl (ih hs)
  | altR h ih => simp only [nullableAt, Bool.or_eq_true]; exact .inr (ih hs)
  | starNil => simp [nullableAt]
  | starCons h1 h2 ih1 ih2 => simp [nullableAt]
  | aStart => simp [nullableAt]
  | aEnd => simp [nullableAt]

/-- Soundness of the derivative: a match of the derivative extends to a
match of the original regex with the consumed character prepended. -/
theorem deriv_sound {c : Char} {st : Bool} :
    ∀ {r : Regex} {en : Bool} {s : List Char},
      PM (deriv st c r) false en s → PM r st en (c :: s) := by
  intro r
  induction r with
  | void => intro en s h; rw [deriv] at h; exact absurd h PM_void_iff.mp
  | eps => intro en s h; rw [deriv] at h; exact absurd h PM_void_iff.mp
  | char c' =>
      intro en s h
      rw [deriv] at h
      by_cases hc : c' = c
      · rw [if_pos hc] at h
        rw [PM_eps_iff] at h
        subst h; subst hc
        exact .char
      · rw [if_neg hc] at h
        exact absurd h PM_void_iff.mp
  | cls neg items =>
      intro en s h
      rw [deriv] at h
      by_cases hc : clsMatch neg items c = true
      · rw [if_pos hc] at h
        rw [PM_eps_iff] at h
        subst h
        exact .cls hc
      · rw [if_neg hc] at h
        exact absurd h PM_void_iff.mp
  | seq r1 r2 ih1 ih2 =>
      intro en s h
      rw [deriv, PM_alt_iff] at h
      rcases h with h | h
      · rw [PM_seq_iff] at h
        rcases h with ⟨u, v, rfl, hu, hv⟩
        have h1 : PM r1 st (en && v.isEmpty) (c :: u) := ih1 hu
        have h2 : PM r2 (st && (c :: u).isEmpty) en v := by
          simpa using hv
        exact PM.seq h1 h2
      · by_cases hn : nullableAt st false r1 = true
        · rw [if_pos hn] at h
          have h2 : PM r2 (st && List.isEmpty ([] : List Char)) en (c :: s) := by
            simpa using ih2 h
          have h1 : PM r1 st (en && (c :: s).isEmpty) [] := by
            simpa using nullable_sound hn
          have := PM.seq h1 h2
          simpa using this
        · rw [if_neg hn] at h
          exact absurd h PM_void_iff.mp
  | alt r1 r2 ih1 ih2 =>
      intro en s h
      rw [deriv, PM_alt_iff] at h
      rcases h with h | h
      · exact .altL (ih1 h)
      · exact .altR (ih2 h)
  | star r ih =>
      intro en s h
      rw [deriv, PM_seq_iff] at h
      rcases h with ⟨u, v, rfl, hu, hv⟩
      have h1 : PM r st (en && v.isEmpty) (c :: u) := ih hu
      have h2 : PM (.star r) (st && (c :: u).isEmpty) en v := by
        simpa using hv
      exact PM.starCons h1 h2
  | aStart => intro en s h; rw [deriv] at h; exact absurd h PM_void_iff.mp
  | aEnd => intro en s h; rw [deriv] at h; exact absurd h PM_void_iff.mp

/-- Completeness of the derivative: a match beginning with `c` yields a
match of the derivative on the tail. -/
theorem deriv_complete {r : Regex} {st en : Bool} {t : List Char}
    (h : PM r st en t) :
    ∀ {c : Char} {s : List Char}, t = c :: s → PM (deriv st c r) false en s := by
  induction h with
  | eps => intro c s hs; simp at hs
  | @char c' st' en' =>
      intro c s hs
      rw [List.cons.injEq] at hs
      rcases hs with ⟨rfl, rfl⟩
      rw [deriv, if_pos rfl]
      exact .eps
  | @cls neg items c' st' en' hm =>
      intro c s hs
      rw [List.cons.injEq] at hs
      rcases hs with ⟨rfl, rfl⟩
      rw [deriv, if_pos hm]
      exact .eps
  | @seq r1 st' en' s1 r2 s2 h1 h2 ih1 ih2 =>
      intro c s hs
      rw [deriv, PM_alt_iff]
      cases s1 with
      | nil =>
          simp only [List.nil_append] at hs
          subst hs
          right
          have hn : nullableAt st' false r1 = true := by
            have := nullable_complete h1 rfl
            simpa using this
          rw [if_pos hn]
          have := ih2 (c := c) (s := s) rfl
          simpa using this
      | cons c1 u =>
          rw [List.cons_append, List.cons.injEq] at hs
          rcases hs with ⟨rfl, rfl⟩
          left
          rw [PM_seq_iff]
          refine ⟨u, s2, rfl, ih1 rfl, ?_⟩
          simpa using h2
  | altL h ih =>
      intro c s hs
      rw [deriv, PM_alt_iff]
      exact .inl (ih hs)
  | altR h ih =>
      intro c s hs
      rw [deriv, PM_alt_iff]
      exact .inr (ih hs)
  | starNil => intro c s hs; simp at hs
  | @starCons r' st' en' s1 s2 h1 h2 ih1 ih2 =>
      intro c s hs
      cases s1 with
      | nil =>
          simp only [List.nil_append] at hs
          subst hs
          have := ih2 (c := c) (s := s) rfl
          simpa using this
      | cons c1 u =>
          rw [List.cons_append, List.cons.injEq] at hs
          rcases hs with ⟨rfl, rfl⟩
          rw [deriv, PM_seq_iff]
          refine ⟨u, s2, rfl, ih1 rfl, ?_⟩
          simpa using h2
  | aStart => intro c s hs; simp at hs
  | aEnd => intro c s hs; simp at hs

/-- Correctness of `matchHere`: some prefix of `s` is matched, the flags
of the match segment being `st` at its start and "the rest is empty" at
its end. -/
theorem matchHere_iff :
    ∀ {s : List Char} {st : Bool} {r : Regex},
      matchHere st r s = true ↔ ∃ s1 s2, s = s1 ++ s2 ∧ PM r st s2.isEmpty s1 := by
  intro s
  induction s with
  | nil =>
      intro st r
      rw [matchHere]
      constructor
      · intro h
        exact ⟨[], [], rfl, by simpa using nullable_sound h⟩
      · rintro ⟨s1, s2, hs, h⟩
        rcases List.append_eq_nil.mp hs.symm with ⟨rfl, rfl⟩
        exact nullable_complete (by simpa using h) rfl
  | cons c s ih =>
      intro st r
      rw [matchHere]
      constructor
      · intro h
        rcases Bool.or_eq_true _ _ |>.mp h with h | h
        · exact ⟨[], c :: s, rfl, by simpa using nullable_sound h⟩
        · rcases ih.mp h with ⟨u, v, rfl, hu⟩
          exact ⟨c :: u, v, rfl, deriv_sound hu⟩
      · rintro ⟨s1, s2, hs, hm⟩
        rw [Bool.or_eq_true]
        cases s1 with
        | nil =>
            simp only [List.nil_append] at hs
            subst hs
            left
            exact nullable_complete (by simpa using hm) rfl
        | cons c1 u =>
            rw [List.cons_append, List.cons.injEq] at hs
            rcases hs with ⟨rfl, rfl⟩
            right
            exact ih.mpr ⟨u, s2, rfl, deriv_complete hm rfl⟩

/-- Correctness of the search loop `matchFrom`. -/
theorem matchFrom_iff :
    ∀ {s : List Char} {st : Bool} {r : Regex},
      matchFrom st r s = true ↔
        ∃ pre s1 s2, s = pre ++ s1 ++ s2 ∧
          PM r (st && pre.isEmpty) s2.isEmpty s1 := by
  intro s
  induction s with
  | nil =>
      intro st r
      rw [matchFrom, matchHere_iff]
      constructor
      · rintro ⟨s1, s2, hs, h⟩
        exact ⟨[], s1, s2, by simpa using hs, by simpa using h⟩
      · rintro ⟨pre, s1, s2, hs, h⟩
        rcases List.append_eq_nil.mp hs.symm with ⟨h12, rfl⟩
        rcases List.append_eq_nil.mp h12 with ⟨rfl, rfl⟩
        exact ⟨[], [], rfl, by simpa using h⟩
  | cons c s ih =>
      intro st r
      rw [matchFrom]
      constructor
      · intro h
        rcases Bool.or_eq_true _ _ |>.mp h with h | h
        · rcases matchHere_iff.mp h with ⟨s1, s2, hs, hm⟩
          exact ⟨[], s1, s2, by simpa using hs, by simpa using hm⟩
        · rcases ih.mp h with ⟨pre, s1, s2, hs, hm⟩
          exact ⟨c :: pre, s1, s2, by simp [hs], by simpa using hm⟩
      · rintro ⟨pre, s1, s2, hs, hm⟩
        rw [Bool.or_eq_true]
        cases pre with
        | nil =>
            simp only [List.nil_append] at hs
            left
            exact matchHere_iff.mpr ⟨s1, s2, hs, by simpa using hm⟩
        | cons c1 u =>
            simp only [List.cons_append, List.cons.injEq] at hs
            rcases hs with ⟨rfl, rfl⟩
            right
            exact ih.mpr ⟨u, s1, s2, rfl, by simpa using hm⟩

/-- Correctness of the model of `test`: a match of `r` on some segment
of the subject, flags reflecting whether the segment touches the
subject's start and end. -/
theorem jsTest_iff {r : Regex} {s : List Char} :
    jsTest r s = true ↔
      ∃ pre s1 s2, s = pre ++ s1 ++ s2 ∧ PM r pre.isEmpty s2.isEmpty s1 := by
  rw [jsTest, matchFrom_iff]
  constructor
  · rintro ⟨pre, s1, s2, hs, h⟩
    exact ⟨pre, s1, s2, hs, by simpa using h⟩
  · rintro ⟨pre, s1, s2, hs, h⟩
    exact ⟨pre, s1, s2, hs, by simpa using h⟩

/-!
## Assertion-free regexes

For regexes without `^`/`$` the positional flags are irrelevant, and the
relation collapses to the ordinary language semantics `NM`. -/

/-- `r` contains no `^`/`$` assertion. -/
def noAssert : Regex → Bool
  | .void => true
  | .eps => true
  | .char _ => true
  | .cls _ _ => true
  | .seq r1 r2 => noAssert r1 && noAssert r2
  | .alt r1 r2 => noAssert r1 && noAssert r2
  | .star r => noAssert r
  | .aStart => false
  | .aEnd => false

/-- On assertion-free regexes the match relation does not depend on the
positional flags. -/
theorem PM_flagless {r : Regex} {st en : Bool} {s : List Char}
    (h : PM r st en s) (hr : noAssert r = true) :
    ∀ st' en', PM r st' en' s := by
  induction h with
  | eps => intro _ _; exact .eps
  | char => intro _ _; exact .char
  | cls hm => intro _ _; exact .cls hm
  | seq h1 h2 ih1 ih2 =>
      intro st' en'
      rw [noAssert, Bool.and_eq_true] at hr
      exact .seq (ih1 hr.1 _ _) (ih2 hr.2 _ _)
  | altL h ih =>
      intro st' en'
      rw [noAssert, Bool.and_eq_true] at hr
      exact .altL (ih hr.1 _ _)
  | altR h ih =>
      intro st' en'
      rw [noAssert, Bool.and_eq_true] at hr
      exact .altR (ih hr.2 _ _)
  | starNil => intro _ _; exact .starNil
  | starCons h1 h2 ih1 ih2 =>
      intro st' en'
      rw [noAssert] at hr
      exact .starCons (ih1 hr _ _) (ih2 (by rw [noAssert]; exact hr) _ _)
  | aStart => rw [noAssert] at hr; cases hr
  | aEnd => rw [noAssert] at hr; cases hr

/-- Plain (flagless) matching of an assertion-free regex. -/
def NM (r : Regex) (s : List Char) : Prop := PM r false false s

theorem NM_eps_iff {s : List Char} : NM .eps s ↔ s = [] := PM_eps_iff

theorem NM_char_iff {c : Char} {s : List Char} : NM (.char c) s ↔ s = [c] :=
  PM_char_iff

theorem NM_cls_iff {neg : Bool} {items : List CItem} {s : List Char} :
    NM (.cls neg items) s ↔ ∃ c, s = [c] ∧ clsMatch neg items c = true :=
  PM_cls_iff

theorem NM_alt_iff {r1 r2 : Regex} {s : List Char} :
    NM (.alt r1 r2) s ↔ NM r1 s ∨ NM r2 s := PM_alt_iff

/-- Concatenation of assertion-free regexes: exactly the splittings. -/
theorem NM_seq_iff {r1 r2 : Regex} {s : List Char}
    (hr1 : noAssert r1 = true) (hr2 : noAssert r2 = true) :
    NM (.seq r1 r2) s ↔ ∃ s1 s2, s = s1 ++ s2 ∧ NM r1 s1 ∧ NM r2 s2 := by
  constructor
  · intro h
    rcases PM_seq_iff.mp h with ⟨s1, s2, rfl, h1, h2⟩
    exact ⟨s1, s2, rfl, PM_flagless h1 hr1 false false, PM_flagless h2 hr2 false false⟩
  · rintro ⟨s1, s2, rfl, h1, h2⟩
    exact PM.seq (PM_flagless h1 hr1 _ _) (PM_flagless h2 hr2 _ _)

/-- One iteration of a star. -/
theorem NM_star_one {r : Regex} {s : List Char} (hr : noAssert r = true)
    (h : NM r s) : NM (.star r) s := by
  have h1 : PM r false (false && List.isEmpty ([] : List Char)) s :=
    PM_flagless h hr false (false && List.isEmpty ([] : List Char))
  have h2 : PM (.star r) (false && s.isEmpty) false [] := PM.starNil
  have := PM.starCons h1 h2
  simpa using this

/-- Star matches compose under concatenation. -/
theorem NM_star_append {r : Regex} (hr : noAssert r = true) :
    ∀ {s1 s2 : List Char}, NM (.star r) s1 → NM (.star r) s2 →
      NM (.star r) (s1 ++ s2) := by
  have key : ∀ {rr : Regex} {st en : Bool} {s1 : List Char}, PM rr st en s1 →
      rr = .star r → ∀ {s2 : List Char}, NM (.star r) s2 → NM (.star r) (s1 ++ s2) := by
    intro rr st en s1 h
    induction h with
    | eps => intro he; cases he
    | char => intro he; cases he
    | cls _ => intro he; cases he
    | seq _ _ _ _ => intro he; cases he
    | altL _ _ => intro he; cases he
    | altR _ _ => intro he; cases he
    | starNil =>
        intro he s2 h2
        cases he
        simpa using h2
    | @starCons r' st' en' u v h1 h2 ih1 ih2 =>
        intro he s2 hs2
        cases he
        have tail : NM (.star r) (v ++ s2) := ih2 rfl hs2
        have head : PM r false (false && (v ++ s2).isEmpty) u :=
          PM_flagless h1 hr _ _
        have := PM.starCons head
          (PM_flagless tail (by rw [noAssert]; exact hr) (false && u.isEmpty) false)
        simpa [List.append_assoc] using this
    | aStart => intro he; cases he
    | aEnd => intro he; cases he
  intro s1 s2 h1 h2
  exact key h1 rfl h2

/-- A star of a character class matches exactly the strings all of whose
characters the class matches. -/
theorem NM_star_cls_iff {neg : Bool} {items : List CItem} {s : List Char} :
    NM (.star (.cls neg items)) s ↔ ∀ c ∈ s, clsMatch neg items c = true := by
  constructor
  · have key : ∀ {rr : Regex} {st en : Bool} {s : List Char}, PM rr st en s →
        rr = .star (.cls neg items) → ∀ c ∈ s, clsMatch neg items c = true := by
      intro rr st en s h
      induction h with
      | eps => intro he; cases he
      | char => intro he; cases he
      | cls _ => intro he; cases he
      | seq _ _ _ _ => intro he; cases he
      | altL _ _ => intro he; cases he
      | altR _ _ => intro he; cases he
      | starNil => intro _ c hc; simp at hc
      | @starCons r' st' en' u v h1 h2 ih1 ih2 =>
          intro he c hc
          cases he
          rcases PM_cls_iff.mp h1 with ⟨c', he', hm⟩
          subst he'
          rcases List.mem_append.mp hc with hc | hc
          · rcases List.mem_singleton.mp hc with rfl
            exact hm
          · exact ih2 rfl c hc
      | aStart => intro he; cases he
      | aEnd => intro he; cases he
    intro h
    exact key h rfl
  · intro h
    induction s with
    | nil => exact .starNil
    | cons c s ih =>
        have hm : clsMatch neg items c = true := h c (by simp)
        have tail : NM (.star (.cls neg items)) s := ih fun c' hc' => h c' (by simp [hc'])
        have hc1 : PM (.cls neg items) false (false && s.isEmpty) [c] := PM.cls hm
        have hc2 : PM (.star (.cls neg items)) (false && List.isEmpty [c]) false s :=
          PM_flagless tail (by rw [noAssert, noAssert]) (false && List.isEmpty [c]) false
        have := PM.starCons hc1 hc2
        simpa using this

/-- Doubling a star changes nothing: `X*X*` and `X*` match the same
strings. -/
theorem NM_starstar_iff {r : Regex} (hr : noAssert r = true) {s : List Char} :
    NM (.seq (.star r) (.star r)) s ↔ NM (.star r) s := by
  have hs : noAssert (.star r) = true := by rw [noAssert]; exact hr
  constructor
  · intro h
    rcases (NM_seq_iff hs hs).mp h with ⟨s1, s2, rfl, h1, h2⟩
    exact NM_star_append hr h1 h2
  · intro h
    exact (NM_seq_iff hs hs).mpr ⟨[], s, rfl, .starNil, h⟩

/-- A sequence spine of assertion-free atoms is assertion-free. -/
theorem noAssert_buildSeq {l : List Regex} (hl : ∀ a ∈ l, noAssert a = true) :
    noAssert (buildSeq l) = true := by
  induction l with
  | nil => rw [buildSeq, noAssert]
  | cons a l ih =>
      rw [buildSeq, noAssert, Bool.and_eq_true]
      exact ⟨hl a (by simp), ih fun b hb => hl b (by simp [hb])⟩

/-- Splitting a spine of assertion-free atoms at an append boundary. -/
theorem NM_buildSeq_append {l1 l2 : List Regex} {s : List Char}
    (h1 : ∀ a ∈ l1, noAssert a = true) (h2 : ∀ a ∈ l2, noAssert a = true) :
    NM (buildSeq (l1 ++ l2)) s ↔
      ∃ s1 s2, s = s1 ++ s2 ∧ NM (buildSeq l1) s1 ∧ NM (buildSeq l2) s2 := by
  induction l1 generalizing s with
  | nil =>
      simp only [List.nil_append]
      constructor
      · intro h
        exact ⟨[], s, rfl, PM.eps, h⟩
      · rintro ⟨s1, s2, rfl, he, h⟩
        rw [buildSeq] at he
        rw [NM_eps_iff] at he
        subst he
        simpa using h
  | cons a l1 ih =>
      have ha : noAssert a = true := h1 a (by simp)
      have hl1 : ∀ b ∈ l1, noAssert b = true := fun b hb => h1 b (by simp [hb])
      have hrest : ∀ b ∈ l1 ++ l2, noAssert b = true := by
        intro b hb
        rcases List.mem_append.mp hb with hb | hb
        · exact hl1 b hb
        · exact h2 b hb
      rw [List.cons_append, buildSeq,
        NM_seq_iff ha (noAssert_buildSeq hrest)]
      constructor
      · rintro ⟨u, w, rfl, hu, hw⟩
        rcases (ih hl1).mp hw with ⟨v1, v2, rfl, hv1, hv2⟩
        refine ⟨u ++ v1, v2, by rw [List.append_assoc], ?_, hv2⟩
        rw [buildSeq, NM_seq_iff ha (noAssert_buildSeq hl1)]
        exact ⟨u, v1, rfl, hu, hv1⟩
      · rintro ⟨s1, s2, rfl, hs1, hs2⟩
        rw [buildSeq, NM_seq_iff ha (noAssert_buildSeq hl1)] at hs1
        rcases hs1 with ⟨u, v1, rfl, hu, hv1⟩
        exact ⟨u, v1 ++ s2, by rw [List.append_assoc], hu,
          (ih hl1).mpr ⟨v1, s2, rfl, hv1, hs2⟩⟩

/-- A spine ending in the `$` assertion: the assertion pins the match to
the end of the subject and otherwise disappears. -/
theorem PM_spine_aEnd {atoms : List Regex} {st en : Bool} {s : List Char}
    (hl : ∀ a ∈ atoms, noAssert a = true) :
    PM (buildSeq (atoms ++ [.aEnd])) st en s ↔ en = true ∧ NM (buildSeq atoms) s := by
  induction atoms generalizing st en s with
  | nil =>
      simp only [List.nil_append, buildSeq]
      constructor
      · intro h
        rcases PM_seq_iff.mp h with ⟨s1, s2, rfl, h1, h2⟩
        rw [PM_aEnd_iff] at h1
        rcases h1 with ⟨hen, rfl⟩
        rw [PM_eps_iff] at h2
        subst h2
        refine ⟨by simpa using hen, PM.eps⟩
      · rintro ⟨rfl, h⟩
        rw [NM_eps_iff] at h
        subst h
        have h1 : PM Regex.aEnd st (true && List.isEmpty ([] : List Char)) [] := by
          simpa using (PM.aEnd : PM Regex.aEnd st true [])
        have h2 : PM Regex.eps (st && List.isEmpty ([] : List Char)) true [] := PM.eps
        have := PM.seq h1 h2
        simpa using this
  | cons a atoms ih =>
      have ha : noAssert a = true := hl a (by simp)
      have hl' : ∀ b ∈ atoms, noAssert b = true := fun b hb => hl b (by simp [hb])
      rw [List.cons_append, buildSeq]
      constructor
      · intro h
        rcases PM_seq_iff.mp h with ⟨s1, s2, rfl, h1, h2⟩
        rcases (ih hl').mp h2 with ⟨rfl, hs2⟩
        refine ⟨rfl, ?_⟩
        rw [buildSeq, NM_seq_iff ha (noAssert_buildSeq hl')]
        exact ⟨s1, s2, rfl, PM_flagless h1 ha false false, hs2⟩
      · rintro ⟨rfl, h⟩
        rw [buildSeq, NM_seq_iff ha (noAssert_buildSeq hl')] at h
        rcases h with ⟨s1, s2, rfl, h1, h2⟩
        exact PM.seq (PM_flagless h1 ha _ _) ((ih hl').mpr ⟨rfl, h2⟩)

/-- The `test` model on a fully anchored pattern `^…$` whose body is
assertion-free: exactly whole-string matching of the body. -/
theorem jsTest_anchored {atoms : List Regex} {s : List Char}
    (hl : ∀ a ∈ atoms, noAssert a = true) :
    jsTest (buildSeq (.aStart :: atoms ++ [.aEnd])) s = true ↔
      NM (buildSeq atoms) s := by
  rw [List.cons_append, buildSeq, jsTest_iff]
  constructor
  · rintro ⟨pre, s1, s2, hs, h⟩
    rcases PM_seq_iff.mp h with ⟨u, v, rfl, h1, h2⟩
    rw [PM_aStart_iff] at h1
    rcases h1 with ⟨hpre, rfl⟩
    rw [(PM_spine_aEnd hl)] at h2
    rcases h2 with ⟨hs2, hv⟩
    have hpre' : pre = [] := by
      cases pre with
      | nil => rfl
      | cons c p => simp at hpre
    have hs2' : s2 = [] := by
      cases s2 with
      | nil => rfl
      | cons c p => simp at hs2
    subst hpre'; subst hs2'
    simp only [List.nil_append, List.append_nil] at hs
    rw [hs]
    exact hv
  · intro h
    refine ⟨[], s, [], by simp, ?_⟩
    have h2 : PM (buildSeq (atoms ++ [.aEnd]))
        (List.isEmpty ([] : List Char) && List.isEmpty ([] : List Char))
        (List.isEmpty ([] : List Char)) s := by
      rw [PM_spine_aEnd hl]
      exact ⟨rfl, h⟩
    have h1 : PM Regex.aStart (List.isEmpty ([] : List Char))
        (List.isEmpty ([] : List Char) && s.isEmpty) [] := PM.aStart
    have := PM.seq h1 h2
    simpa using this

/-!
## The parser on generated patterns

The glob compiler appends one of five kinds of chunk per step; on
patterns built from "safe" characters (no regex metacharacter passed
through literally) the parser consumes each chunk as one atom. -/

/-- One compiler step's output kind. -/
inductive Chunk where
  | lit (c : Char)
  | clsStar
  | clsOne
  | dotLit
  | segStar
deriving DecidableEq, Repr

/-- The characters a chunk contributes to the pattern. -/
def Chunk.emit : Chunk → List Char
  | .lit c => [c]
  | .clsStar => ['[', '^', '/', ']', '*']
  | .clsOne => ['[', '^', '/', ']']
  | .dotLit => ['\\', '.']
  | .segStar => ['(', '[', '^', '/', ']', '*', '/', ')', '*']

/-- The class `[^/]`. -/
def nonSlash : Regex := .cls true [.single '/']

/-- The atom the parser builds from a chunk. -/
def Chunk.atom : Chunk → Regex
  | .lit c => .char c
  | .clsStar => .star nonSlash
  | .clsOne => nonSlash
  | .dotLit => .char '.'
  | .segStar => .star (.seq (.star nonSlash) (.seq (.char '/') .eps))

/-- The `lastK` state after a chunk has been consumed. -/
def Chunk.kind : Chunk → LastK
  | .lit _ => .atom
  | .clsOne => .atom
  | .dotLit => .atom
  | .clsStar => .quant
  | .segStar => .quant

/-- The compiler's output chunk by chunk (same recursion as
`globPatternAux`). -/
def chunksOf : List Char → List Chunk
  | '*' :: '*' :: '/' :: rest => .segStar :: chunksOf rest
  | '*' :: rest => .clsStar :: chunksOf rest
  | '?' :: rest => .clsOne :: chunksOf rest
  | '.' :: rest => .dotLit :: chunksOf rest
  | c :: rest => .lit c :: chunksOf rest
  | [] => []

theorem globPatternAux_eq_chunks (g : List Char) :
    globPatternAux g = ((chunksOf g).map Chunk.emit).flatten := by
  induction g using globPatternAux.induct with
  | case1 rest ih => simp [globPatternAux, chunksOf, Chunk.emit, ih]
  | case2 rest hneg ih =>
      rw [globPatternAux.eq_2 rest hneg, chunksOf.eq_2 rest hneg]
      simp [Chunk.emit, ih]
  | case3 rest ih => simp [globPatternAux, chunksOf, Chunk.emit, ih]
  | case4 rest ih => simp [globPatternAux, chunksOf, Chunk.emit, ih]
  | case5 c rest hns h1 h2 h3 ih =>
      rw [globPatternAux.eq_5 c rest hns h1 h2 h3, chunksOf.eq_5 c rest hns h1 h2 h3]
      simp [Chunk.emit, ih]
  | case6 => simp [globPatternAux, chunksOf]

/-- Glob characters that reach the regex unescaped without being a
regex metacharacter (`*`, `?`, `.` are translated by the compiler and
are therefore also safe in a glob, handled separately). -/
def globSafe (c : Char) : Bool :=
  !(c = '(' || c = ')' || c = '[' || c = ']' || c = '\x7b' || c = '\x7d' ||
    c = '\\' || c = '+' || c = '^' || c = '$' || c = '|')

/-- Chunks whose characters the parser consumes into a single atom. -/
def Chunk.good : Chunk → Bool
  | .lit c => globSafe c && !(c = '*' || c = '?' || c = '.')
  | _ => true

/-- Run the parser over a list of characters without finishing. -/
def stepMany : List Char → PSt → Except String PSt
  | [], st => .ok st
  | c :: cs, st =>
      match stepChar c st with
      | .ok st' => stepMany cs st'
      | .error e => .error e

theorem stepMany_append (cs1 cs2 : List Char) (st : PSt) :
    stepMany (cs1 ++ cs2) st = (stepMany cs1 st).bind (stepMany cs2) := by
  induction cs1 generalizing st with
  | nil => rfl
  | cons c cs ih =>
      rw [List.cons_append, stepMany, stepMany]
      cases stepChar c st with
      | ok st' => exact ih st'
      | error e => rfl

theorem parseLoop_eq (cs : List Char) (st : PSt) :
    parseLoop cs st = (stepMany cs st).bind finishSt := by
  induction cs generalizing st with
  | nil => rfl
  | cons c cs ih =>
      rw [parseLoop, stepMany]
      cases stepChar c st with
      | ok st' => exact ih st'
      | error e => rfl

/-- The parser consumes a good chunk from any normal-mode state as one
atom appended to the current alternative. -/
theorem stepMany_chunk (ch : Chunk) (hg : ch.good = true)
    (stack : List (List Regex × List Regex)) (alts seqRev : List Regex)
    (k : LastK) :
    stepMany ch.emit ⟨stack, alts, seqRev, k, .norm⟩ =
      .ok ⟨stack, alts, ch.atom :: seqRev, ch.kind, .norm⟩ := by
  cases ch with
  | lit c =>
      have hstep : stepChar c ⟨stack, alts, seqRev, k, .norm⟩ =
          .ok ⟨stack, alts, .char c :: seqRev, .atom, .norm⟩ := by
        simp only [stepChar, normStep]
        rw [if_neg (by rintro rfl; revert hg; decide),
          if_neg (by rintro rfl; revert hg; decide),
          if_neg (by rintro rfl; revert hg; decide),
          if_neg (by rintro rfl; revert hg; decide),
          if_neg (by rintro rfl; revert hg; decide),
          if_neg (by rintro rfl; revert hg; decide),
          if_neg (by rintro rfl; revert hg; decide),
          if_neg (by rintro rfl; revert hg; decide),
          if_neg (by rintro rfl; revert hg; decide),
          if_neg (by rintro rfl; revert hg; decide),
          if_neg (by rintro rfl; revert hg; decide),
          if_neg (by rintro rfl; revert hg; decide)]
        rfl
      rw [Chunk.emit, stepMany, hstep]
      rfl
  | clsStar => rfl
  | clsOne => rfl
  | dotLit => rfl
  | segStar => rfl

/-- The parser consumes a list of good chunks from any normal-mode
state, appending their atoms (in reverse, since the alternative is
accumulated reversed). -/
theorem stepMany_chunks (chs : List Chunk) (h : ∀ ch ∈ chs, ch.good = true)
    (stack : List (List Regex × List Regex)) (alts seqRev : List Regex)
    (k : LastK) :
    ∃ k', stepMany ((chs.map Chunk.emit).flatten) ⟨stack, alts, seqRev, k, .norm⟩ =
      .ok ⟨stack, alts, (chs.map Chunk.atom).reverse ++ seqRev, k', .norm⟩ := by
  induction chs generalizing seqRev k with
  | nil => exact ⟨k, rfl⟩
  | cons ch chs ih =>
      have hch : ch.good = true := h ch (by simp)
      have hrest : ∀ c ∈ chs, c.good = true := fun c hc => h c (by simp [hc])
      rcases ih hrest (ch.atom :: seqRev) ch.kind with ⟨k', hk⟩
      refine ⟨k', ?_⟩
      rw [List.map_cons, List.flatten_cons, stepMany_append,
        stepMany_chunk ch hch]
      simpa [List.append_assoc] using hk

/-- On a glob of safe characters the compiler emits only good chunks. -/
theorem chunksOf_good (g : List Char) (hs : ∀ c ∈ g, globSafe c = true) :
    ∀ ch ∈ chunksOf g, ch.good = true := by
  induction g using chunksOf.induct with
  | case1 rest ih =>
      rw [chunksOf]
      intro ch hch
      rcases List.mem_cons.mp hch with rfl | hch
      · rfl
      · exact ih (fun c hc => hs c (by simp [hc])) ch hch
  | case2 rest hneg ih =>
      rw [chunksOf.eq_2 rest hneg]
      intro ch hch
      rcases List.mem_cons.mp hch with rfl | hch
      · rfl
      · exact ih (fun c hc => hs c (by simp [hc])) ch hch
  | case3 rest ih =>
      rw [chunksOf]
      intro ch hch
      rcases List.mem_cons.mp hch with rfl | hch
      · rfl
      · exact ih (fun c hc => hs c (by simp [hc])) ch hch
  | case4 rest ih =>
      rw [chunksOf]
      intro ch hch
      rcases List.mem_cons.mp hch with rfl | hch
      · rfl
      · exact ih (fun c hc => hs c (by simp [hc])) ch hch
  | case5 c rest hns h1 h2 h3 ih =>
      rw [chunksOf.eq_5 c rest hns h1 h2 h3]
      intro ch hch
      rcases List.mem_cons.mp hch with rfl | hch
      · have hc : globSafe c = true := hs c (by simp)
        rw [Chunk.good, hc]
        simp only [Bool.true_and, Bool.not_eq_true', Bool.or_eq_false_iff,
          decide_eq_false_iff_not]
        exact ⟨⟨h1, h2⟩, h3⟩
      · exact ih (fun c' hc => hs c' (by simp [hc])) ch hch
  | case6 => intro ch hch; simp [chunksOf] at hch

/-- On a safe glob the parser succeeds and produces the anchored spine
of the chunk atoms. -/
theorem parse_globPattern (g : List Char) (hs : ∀ c ∈ g, globSafe c = true) :
    parseRegex (globPattern g) =
      .ok (buildSeq (.aStart :: ((chunksOf g).map Chunk.atom ++ [.aEnd]))) := by
  obtain ⟨k', hk⟩ :=
    stepMany_chunks (chunksOf g) (chunksOf_good g hs) [] [] [.aStart] .assrt
  rw [parseRegex, globPattern, globPatternAux_eq_chunks, parseLoop_eq]
  have hok1 : ∀ (f : PSt → Except String PSt) (st : PSt),
      Except.bind (Except.ok st) f = f st := fun _ _ => rfl
  have hok2 : ∀ (f : PSt → Except String Regex) (st : PSt),
      Except.bind (Except.ok st) f = f st := fun _ _ => rfl
  rw [show ('^' :: ((chunksOf g).map Chunk.emit).flatten ++ ['$'])
      = ['^'] ++ (((chunksOf g).map Chunk.emit).flatten ++ ['$']) by simp]
  rw [stepMany_append,
    show stepMany ['^'] initSt = .ok ⟨[], [], [.aStart], .assrt, .norm⟩ from rfl,
    hok1, stepMany_append, hk, hok1]
  rw [show stepMany ['$'] ⟨[], [], ((chunksOf g).map Chunk.atom).reverse ++ [.aStart], k', .norm⟩
      = .ok ⟨[], [], .aEnd :: (((chunksOf g).map Chunk.atom).reverse ++ [.aStart]),
        .assrt, .norm⟩ from rfl]
  rw [hok2]
  rw [show ∀ b : List Regex, finishSt ⟨[], [], b, .assrt, .norm⟩
      = Except.ok (buildSeq b.reverse) from fun _ => rfl]
  congr 2
  simp

/-- Chunk atoms contain no assertion. -/
theorem chunk_atom_noAssert (ch : Chunk) : noAssert ch.atom = true := by
  cases ch <;> rfl

/-- What `make(g).matches(p)` is for a safe glob: the search of the
anchored spine over the path. -/
theorem fgMatch_safe (g p : String) (hs : ∀ c ∈ g.data, globSafe c = true) :
    fgMatch g p =
      some (jsTest (buildSeq (.aStart :: ((chunksOf g.data).map Chunk.atom ++ [.aEnd])))
        p.data) := by
  rw [fgMatch, make, FileGlob.ofChars, parse_globPattern g.data hs]
  rfl

/-- For a safe glob, matching is whole-string matching of the chunk
atoms. -/
theorem fgMatch_iff_NM (g p : String) (hs : ∀ c ∈ g.data, globSafe c = true) :
    fgMatch g p = some true ↔
      NM (buildSeq ((chunksOf g.data).map Chunk.atom)) p.data := by
  rw [fgMatch_safe g p hs, Option.some_inj]
  exact jsTest_anchored fun a ha => by
    rcases List.mem_map.mp ha with ⟨ch, _, rfl⟩
    exact chunk_atom_noAssert ch

/-- A spine of literal characters matches exactly that string. -/
theorem NM_litSpine (cs : List Char) :
    ∀ s : List Char, NM (buildSeq (cs.map Regex.char)) s ↔ s = cs := by
  induction cs with
  | nil =>
      intro s
      rw [List.map_nil, buildSeq]
      exact NM_eps_iff
  | cons c cs ih =>
      intro s
      rw [List.map_cons, buildSeq,
        NM_seq_iff (show noAssert (Regex.char c) = true from rfl)
          (noAssert_buildSeq fun a ha => by
            rcases List.mem_map.mp ha with ⟨c', _, rfl⟩; rfl)]
      constructor
      · rintro ⟨s1, s2, rfl, h1, h2⟩
        rw [NM_char_iff] at h1
        rw [ih] at h2
        rw [h1, h2]
        rfl
      · rintro rfl
        exact ⟨[c], cs, rfl, NM_char_iff.mpr rfl, (ih cs).mpr rfl⟩

/-- On a glob of plain characters the compiler emits only literal
chunks. -/
theorem chunksOf_lit (g : List Char)
    (h : ∀ c ∈ g, ¬c = '*' ∧ ¬c = '?' ∧ ¬c = '.') :
    chunksOf g = g.map Chunk.lit := by
  induction g using chunksOf.induct with
  | case1 rest ih => exact absurd (h '*' (by simp)).1 (by simp)
  | case2 rest hneg ih => exact absurd (h '*' (by simp)).1 (by simp)
  | case3 rest ih => exact absurd (h '?' (by simp)).2.1 (by simp)
  | case4 rest ih => exact absurd (h '.' (by simp)).2.2 (by simp)
  | case5 c rest hns h1 h2 h3 ih =>
      rw [chunksOf.eq_5 c rest hns h1 h2 h3, List.map_cons,
        ih fun c' hc => h c' (by simp [hc])]
  | case6 => rfl

/-!
## The claims
-/

/-- A glob character that compiles to an exact-match character: not a
glob token (`*`, `?`, `.`) and not a regex metacharacter that would be
passed through unescaped. -/
def plainChar (c : Char) : Bool :=
  globSafe c && !(c = '*' || c = '?' || c = '.')

/-- C1 (counterexample): the glob `a+` consists of the characters `a`
and `+`, neither of which is `*`, `?` or `.`, yet its matcher accepts
`aa`, which is not equal to `a+` — the compiler passes `+` through
unescaped and the resulting regex `^a+$` repeats the `a`. -/
theorem claim_C1_counterexample :
    "a+".data = ['a', '+'] ∧
    ¬('a' = '*' ∨ 'a' = '?' ∨ 'a' = '.') ∧
    ¬('+' = '*' ∨ '+' = '?' ∨ '+' = '.') ∧
    fgMatch "a+" "aa" = some true ∧ ("aa" : String) ≠ "a+" := by
  refine ⟨by decide, by decide, by decide, by decide, by decide⟩

/-- C1 (amended): for a glob `g` containing none of `*`, `?`, `.` *and
no character that is a metacharacter of regular-expression syntax*
(`+ ( ) [ ] { } \ ^ $ |`), the compiled matcher accepts a path `p` iff
`p` equals `g` character for character. -/
theorem claim_C1 (g p : String) (h : ∀ c ∈ g.data, plainChar c = true) :
    fgMatch g p = some true ↔ p = g := by
  have hs : ∀ c ∈ g.data, globSafe c = true := by
    intro c hc
    exact (Bool.and_eq_true _ _ |>.mp (h c hc)).1
  have hlit : ∀ c ∈ g.data, ¬c = '*' ∧ ¬c = '?' ∧ ¬c = '.' := by
    intro c hc
    have := (Bool.and_eq_true _ _ |>.mp (h c hc)).2
    simp only [Bool.not_eq_true', Bool.or_eq_false_iff,
      decide_eq_false_iff_not] at this
    exact ⟨this.1.1, this.1.2, this.2⟩
  rw [fgMatch_iff_NM g p hs, chunksOf_lit g.data hlit, List.map_map]
  rw [show Chunk.atom ∘ Chunk.lit = Regex.char from rfl]
  rw [NM_litSpine]
  exact (@String.ext_iff p g).symm

/-- C1 witness: instantiating the amended claim at `g = p = "ab"`. -/
theorem claim_C1_witness : fgMatch "ab" "ab" = some true :=
  (claim_C1 "ab" "ab" (by decide)).mpr rfl

/-- C2 (counterexample): construction is not total — `make("(")`
produces the pattern `^($`, on which the `RegExp` constructor throws a
`SyntaxError` (unterminated group). -/
theorem claim_C2_counterexample :
    make "(" = Except.error "Unterminated group" := rfl

/-- C2 (amended): construction succeeds on every pattern string free of
the characters `( ) [ ] { } \ + ^ $ |` (in particular on every pattern
built from glob tokens, `/`, and ordinary name characters). -/
theorem claim_C2 (g : String) (h : ∀ c ∈ g.data, globSafe c = true) :
    ∃ fg, make g = Except.ok fg :=
  ⟨_, by rw [make, FileGlob.ofChars, parse_globPattern g.data h]; rfl⟩

/-- C2 witness: a representative glob compiles. -/
theorem claim_C2_witness : ∃ fg, make "node-terminal/*.js" = Except.ok fg :=
  claim_C2 "node-terminal/*.js" (by decide)

/-- C3: `makeSet` returns an already-built set unchanged, hence
`makeSet` after `makeSet` is the same as one `makeSet` for every
argument. -/
theorem claim_C3 :
    (∀ s : MSet, makeSet (.set s) = Except.ok s) ∧
    (∀ x : ArgVal, (makeSet x).bind (fun s => makeSet (.set s)) = makeSet x) := by
  refine ⟨fun s => rfl, fun x => ?_⟩
  cases h : makeSet x with
  | ok s => rfl
  | error e => rfl

/-- C7: for every set variant, `filter` is `matches` mapped over the
list: the result is a sub-sequence of the input in original order
containing exactly the elements on which `matches` is true. -/
theorem claim_C7 (S : MSet) (L : List String) :
    (S.filter L).Sublist L ∧
    S.filter L = L.filter (fun p => S.matches p) ∧
    (∀ p, p ∈ S.filter L ↔ p ∈ L ∧ S.matches p = true) := by
  have hf : S.filter L = L.filter (fun p => S.matches p) := by
    cases S with
    | emptySet =>
        rw [show MSet.emptySet.filter L = [] from rfl]
        symm
        rw [List.filter_eq_nil_iff]
        intro a _ h
        rw [show MSet.emptySet.matches a = false from rfl] at h
        cases h
    | fileGlobSet fgs => rfl
    | compliment i e => rfl
    | union s => rfl
  refine ⟨?_, hf, ?_⟩
  · rw [hf]
    exact List.filter_sublist L
  · intro p
    rw [hf, List.mem_filter]

/-- C8: a compiled matcher returned by `make` is not `instanceof Set`
(its prototype chain does not contain `Set`), so `makeSet` does not pass
it through but builds a fresh one-element `FileGlobSet` around it. -/
theorem claim_C8 (g : String) (fg : FileGlob) (h : make g = Except.ok fg) :
    isaSet (.fglob fg) = false ∧
    ∃ fg', makeSet (.fglob fg) = Except.ok (MSet.fileGlobSet [fg']) :=
  ⟨rfl, ⟨_, rfl⟩⟩

/-- C8 witness: the matcher compiled from the glob `"a"`. -/
theorem claim_C8_witness :
    isaSet (.fglob ⟨.seq .aStart (.seq (.char 'a') (.seq .aEnd .eps))⟩) = false ∧
    ∃ fg', makeSet (.fglob ⟨.seq .aStart (.seq (.char 'a') (.seq .aEnd .eps))⟩) =
      Except.ok (MSet.fileGlobSet [fg']) :=
  claim_C8 "a" ⟨.seq .aStart (.seq (.char 'a') (.seq .aEnd .eps))⟩ rfl

/-- C9: the `**/` expansion `([^/]*/)*` allows each repeated segment to
be empty, so `a/**/b` accepts consecutive slashes. -/
theorem claim_C9 :
    fgMatch "a/**/b" "a//b" = some true ∧
    fgMatch "a/**/b" "a///b" = some true := by
  refine ⟨by decide, by decide⟩

/-- C10: `makeUnion()` with no arguments builds a `Union` over the
empty list of sets; it matches nothing and filters everything away. -/
theorem claim_C10 :
    makeUnion [] = Except.ok (MSet.union []) ∧
    (∀ p, (MSet.union []).matches p = false) ∧
    (∀ L, (MSet.union []).filter L = []) := by
  refine ⟨rfl, fun p => rfl, fun L => ?_⟩
  rw [show (MSet.union []).filter L
      = L.filter (fun p => (MSet.union []).matches p) from rfl]
  rw [List.filter_eq_nil_iff]
  intro p _ h
  rw [show (MSet.union []).matches p = false from rfl] at h
  cases h

/-- The class `[^/]` matches exactly the non-separator characters. -/
theorem nonSlash_match (c : Char) :
    clsMatch true [CItem.single '/'] c = true ↔ ¬c = '/' := by
  simp [clsMatch, citemHas]

/-- `[^/]*` matches exactly the separator-free strings. -/
theorem NM_star_nonSlash_iff {s : List Char} :
    NM (.star nonSlash) s ↔ '/' ∉ s := by
  rw [nonSlash, NM_star_cls_iff]
  constructor
  · intro h hmem
    have := (nonSlash_match '/').mp (h '/' hmem)
    exact this rfl
  · intro h c hc
    rw [nonSlash_match]
    intro he
    exact h (he ▸ hc)

/-- `([^/]*/)*` matches any concatenation of separator-free segments
each followed by a separator. -/
theorem NM_segStar (segs : List (List Char)) (h : ∀ s ∈ segs, '/' ∉ s) :
    NM (Chunk.atom .segStar) ((segs.map (fun s => s ++ ['/'])).flatten) := by
  induction segs with
  | nil => exact PM.starNil
  | cons s rest ih =>
      have hone : NM (.seq (.star nonSlash) (.seq (.char '/') .eps)) (s ++ ['/']) := by
        rw [NM_seq_iff (show noAssert (Regex.star nonSlash) = true from rfl)
          (show noAssert (Regex.seq (Regex.char '/') Regex.eps) = true from rfl)]
        refine ⟨s, ['/'], rfl, NM_star_nonSlash_iff.mpr (h s (by simp)), ?_⟩
        rw [NM_seq_iff (show noAssert (Regex.char '/') = true from rfl)
          (show noAssert Regex.eps = true from rfl)]
        exact ⟨['/'], [], rfl, NM_char_iff.mpr rfl, NM_eps_iff.mpr rfl⟩
      have := NM_star_append (r := .seq (.star nonSlash) (.seq (.char '/') .eps)) rfl
        (NM_star_one rfl hone) (ih fun s' hs' => h s' (by simp [hs']))
      simpa [Chunk.atom] using this

/-- C5: a single `*` compiles to `[^/]*` and never crosses a `/`: the
matcher of `a/*` accepts exactly the paths `a/t` with `t`
separator-free; in particular it rejects `a/b/c` and accepts `a/bc`. -/
theorem claim_C5 :
    fgMatch "a/*" "a/b/c" = some false ∧
    fgMatch "a/*" "a/bc" = some true ∧
    (∀ p : String, fgMatch "a/*" p = some true ↔
      ∃ t : List Char, p.data = 'a' :: '/' :: t ∧ '/' ∉ t) := by
  refine ⟨by decide, by decide, fun p => ?_⟩
  rw [fgMatch_iff_NM "a/*" p (by decide)]
  rw [show (chunksOf "a/*".data).map Chunk.atom
      = [.char 'a', .char '/', .star nonSlash] from rfl]
  rw [show buildSeq [Regex.char 'a', Regex.char '/', Regex.star nonSlash]
      = .seq (.char 'a') (.seq (.char '/') (.seq (.star nonSlash) .eps)) from rfl]
  have e1 : noAssert (Regex.char 'a') = true := rfl
  have e2 : noAssert (Regex.seq (Regex.char '/')
    (Regex.seq (Regex.star nonSlash) Regex.eps)) = true := rfl
  have e3 : noAssert (Regex.char '/') = true := rfl
  have e4 : noAssert (Regex.seq (Regex.star nonSlash) Regex.eps) = true := rfl
  have e5 : noAssert (Regex.star nonSlash) = true := rfl
  have e6 : noAssert Regex.eps = true := rfl
  constructor
  · intro h
    rcases (NM_seq_iff e1 e2).mp h with ⟨s1, s2, he, h1, h2⟩
    rw [NM_char_iff] at h1
    subst h1
    rcases (NM_seq_iff e3 e4).mp h2 with ⟨u1, u2, he2, hu1, hu2⟩
    rw [NM_char_iff] at hu1
    subst hu1
    rcases (NM_seq_iff e5 e6).mp hu2 with ⟨v1, v2, he3, hv1, hv2⟩
    rw [NM_eps_iff] at hv2
    subst hv2
    refine ⟨v1, ?_, NM_star_nonSlash_iff.mp hv1⟩
    rw [he, he2, he3]
    simp
  · rintro ⟨t, hp, ht⟩
    rw [hp]
    refine (NM_seq_iff e1 e2).mpr ⟨['a'], '/' :: t, rfl, NM_char_iff.mpr rfl, ?_⟩
    refine (NM_seq_iff e3 e4).mpr ⟨['/'], t, rfl, NM_char_iff.mpr rfl, ?_⟩
    refine (NM_seq_iff e5 e6).mpr
      ⟨t, [], by simp, NM_star_nonSlash_iff.mpr ht, NM_eps_iff.mpr rfl⟩

/-- C4: `**/` consumes three pattern characters and compiles to
`([^/]*/)*`, matching zero or more segments each followed by `/`: the
matcher of `a/**/b` accepts `a/b` (zero segments), `a/x/y/b`, and
generally `a/` followed by any separator-free segments each with a
trailing `/`, then `b`. -/
theorem claim_C4 :
    globPatternAux ['*', '*', '/'] = "([^/]*/)*".data ∧
    fgMatch "a/**/b" "a/b" = some true ∧
    fgMatch "a/**/b" "a/x/y/b" = some true ∧
    (∀ segs : List (List Char), (∀ s ∈ segs, '/' ∉ s) →
      fgMatch "a/**/b"
        ⟨'a' :: '/' :: ((segs.map (fun s => s ++ ['/'])).flatten ++ ['b'])⟩
        = some true) := by
  refine ⟨by decide, by decide, by decide, fun segs hsegs => ?_⟩
  rw [fgMatch_iff_NM _ _ (by decide)]
  rw [show (chunksOf "a/**/b".data).map Chunk.atom
      = [.char 'a', .char '/', Chunk.atom .segStar, .char 'b'] from rfl]
  rw [show (String.mk ('a' :: '/' :: ((segs.map (fun s => s ++ ['/'])).flatten
      ++ ['b']))).data
      = 'a' :: '/' :: ((segs.map (fun s => s ++ ['/'])).flatten ++ ['b']) from rfl]
  rw [show buildSeq [Regex.char 'a', Regex.char '/', Chunk.atom .segStar,
      Regex.char 'b']
      = .seq (.char 'a') (.seq (.char '/') (.seq (Chunk.atom .segStar)
        (.seq (.char 'b') .eps))) from rfl]
  have e1 : noAssert (Regex.char 'a') = true := rfl
  have e2 : noAssert (Regex.seq (Regex.char '/') (Regex.seq (Chunk.atom .segStar)
    (Regex.seq (Regex.char 'b') Regex.eps))) = true := rfl
  have e3 : noAssert (Regex.char '/') = true := rfl
  have e4 : noAssert (Regex.seq (Chunk.atom .segStar)
    (Regex.seq (Regex.char 'b') Regex.eps)) = true := rfl
  have e5 : noAssert (Chunk.atom .segStar) = true := rfl
  have e6 : noAssert (Regex.seq (Regex.char 'b') Regex.eps) = true := rfl
  have e7 : noAssert (Regex.char 'b') = true := rfl
  have e8 : noAssert Regex.eps = true := rfl
  refine (NM_seq_iff e1 e2).mpr ⟨['a'],
    '/' :: ((segs.map (fun s => s ++ ['/'])).flatten ++ ['b']), rfl,
    NM_char_iff.mpr rfl, ?_⟩
  refine (NM_seq_iff e3 e4).mpr ⟨['/'],
    (segs.map (fun s => s ++ ['/'])).flatten ++ ['b'], rfl,
    NM_char_iff.mpr rfl, ?_⟩
  refine (NM_seq_iff e5 e6).mpr ⟨(segs.map (fun s => s ++ ['/'])).flatten, ['b'],
    rfl, NM_segStar segs hsegs, ?_⟩
  exact (NM_seq_iff e7 e8).mpr ⟨['b'], [], rfl, NM_char_iff.mpr rfl,
    NM_eps_iff.mpr rfl⟩

/-- C4 witness: the universal part instantiated at two one-character
segments gives the spec's example `a/x/y/b`. -/
theorem claim_C4_witness :
    fgMatch "a/**/b" ⟨'a' :: '/' :: ((([['x'], ['y']].map (fun s => s ++ ['/'])).flatten
      ++ ['b']))⟩ = some true :=
  claim_C4.2.2.2 [['x'], ['y']] (by decide)

/-- A concatenation `rest ++ X` cannot start with `*/` when `rest` does
not and `X` supplies neither a leading `/` (after a one-star `rest`) nor
a leading `*/`. -/
theorem starslash_cond (rest X : List Char)
    (hneg : ∀ r, rest = '*' :: '/' :: r → False)
    (hXa : ∀ r, X = '/' :: r → False)
    (hXb : ∀ r, X = '*' :: '/' :: r → False) :
    ∀ r, rest ++ X = '*' :: '/' :: r → False := by
  intro r hr
  cases rest with
  | nil => exact hXb r (by simpa using hr)
  | cons c t =>
      rw [List.cons_append, List.cons.injEq] at hr
      obtain ⟨rfl, hr⟩ := hr
      cases t with
      | nil => exact hXa r (by simpa using hr)
      | cons d t2 =>
          rw [List.cons_append, List.cons.injEq] at hr
          obtain ⟨rfl, hr⟩ := hr
          exact hneg t2 rfl

/-- Inserting `**` (not followed by `/` or `*`) into a glob after an
arbitrary prefix `u` emits the prefix's chunks, two `[^/]*` chunks, and
the tail's chunks; with a single `*` one such chunk.  This is where the
lookahead across the `u`–`**`–`v` boundaries is accounted for. -/
theorem chunksOf_split (u : List Char) {v : List Char}
    (h1 : ∀ r, v = '/' :: r → False) (h2 : ∀ r, v = '*' :: r → False) :
    chunksOf (u ++ '*' :: '*' :: v)
      = chunksOf u ++ .clsStar :: .clsStar :: chunksOf v ∧
    chunksOf (u ++ '*' :: v) = chunksOf u ++ .clsStar :: chunksOf v := by
  have hXa1 : ∀ r, ('*' :: '*' :: v) = '/' :: r → False := by
    intro r hr; rw [List.cons.injEq] at hr; exact absurd hr.1 (by decide)
  have hXb1 : ∀ r, ('*' :: '*' :: v) = '*' :: '/' :: r → False := by
    intro r hr
    rw [List.cons.injEq] at hr
    rw [List.cons.injEq] at hr
    exact absurd hr.2.1 (by decide)
  have hXa2 : ∀ r, ('*' :: v) = '/' :: r → False := by
    intro r hr; rw [List.cons.injEq] at hr; exact absurd hr.1 (by decide)
  have hXb2 : ∀ r, ('*' :: v) = '*' :: '/' :: r → False := by
    intro r hr
    rw [List.cons.injEq] at hr
    exact h1 r hr.2
  have hv2 : ∀ r, v = '*' :: '/' :: r → False := fun r hr => h2 ('/' :: r) hr
  induction u using chunksOf.induct with
  | case1 rest ih =>
      obtain ⟨ihA, ihB⟩ := ih
      constructor
      · rw [show ('*' :: '*' :: '/' :: rest) ++ '*' :: '*' :: v
            = '*' :: '*' :: '/' :: (rest ++ '*' :: '*' :: v) from rfl]
        rw [chunksOf, ihA, chunksOf]
        rfl
      · rw [show ('*' :: '*' :: '/' :: rest) ++ '*' :: v
            = '*' :: '*' :: '/' :: (rest ++ '*' :: v) from rfl]
        rw [chunksOf, ihB, chunksOf]
        rfl
  | case2 rest hneg ih =>
      obtain ⟨ihA, ihB⟩ := ih
      constructor
      · rw [show ('*' :: rest) ++ '*' :: '*' :: v
            = '*' :: (rest ++ '*' :: '*' :: v) from rfl]
        rw [chunksOf.eq_2 _ (starslash_cond rest _ hneg hXa1 hXb1), ihA,
          chunksOf.eq_2 rest hneg]
        rfl
      · rw [show ('*' :: rest) ++ '*' :: v = '*' :: (rest ++ '*' :: v) from rfl]
        rw [chunksOf.eq_2 _ (starslash_cond rest _ hneg hXa2 hXb2), ihB,
          chunksOf.eq_2 rest hneg]
        rfl
  | case3 rest ih =>
      obtain ⟨ihA, ihB⟩ := ih
      constructor
      · rw [show ('?' :: rest) ++ '*' :: '*' :: v
            = '?' :: (rest ++ '*' :: '*' :: v) from rfl]
        rw [chunksOf, ihA, chunksOf]
        rfl
      · rw [show ('?' :: rest) ++ '*' :: v = '?' :: (rest ++ '*' :: v) from rfl]
        rw [chunksOf, ihB, chunksOf]
        rfl
  | case4 rest ih =>
      obtain ⟨ihA, ihB⟩ := ih
      constructor
      · rw [show ('.' :: rest) ++ '*' :: '*' :: v
            = '.' :: (rest ++ '*' :: '*' :: v) from rfl]
        rw [chunksOf, ihA, chunksOf]
        rfl
      · rw [show ('.' :: rest) ++ '*' :: v = '.' :: (rest ++ '*' :: v) from rfl]
        rw [chunksOf, ihB, chunksOf]
        rfl
  | case5 c rest hns hc1 hc2 hc3 ih =>
      obtain ⟨ihA, ihB⟩ := ih
      constructor
      · rw [show (c :: rest) ++ '*' :: '*' :: v
            = c :: (rest ++ '*' :: '*' :: v) from rfl]
        rw [chunksOf.eq_5 c _ (fun r hc _ => hc1 hc) hc1 hc2 hc3, ihA,
          chunksOf.eq_5 c rest hns hc1 hc2 hc3]
        rfl
      · rw [show (c :: rest) ++ '*' :: v = c :: (rest ++ '*' :: v) from rfl]
        rw [chunksOf.eq_5 c _ (fun r hc _ => hc1 hc) hc1 hc2 hc3, ihB,
          chunksOf.eq_5 c rest hns hc1 hc2 hc3]
        rfl
  | case6 =>
      constructor
      · rw [List.nil_append,
          chunksOf.eq_2 _ hXb2, chunksOf.eq_2 _ hv2]
        rfl
      · rw [List.nil_append, chunksOf.eq_2 _ hv2]
        rfl

/-- A doubled `[^/]*` at the head of a spine matches the same strings
as a single one. -/
theorem NM_two_stars (B : List Regex) (hB : ∀ a ∈ B, noAssert a = true)
    (s : List Char) :
    NM (buildSeq (.star nonSlash :: .star nonSlash :: B)) s ↔
      NM (buildSeq (.star nonSlash :: B)) s := by
  have hst : noAssert (Regex.star nonSlash) = true := rfl
  have hsp : noAssert (buildSeq (Regex.star nonSlash :: B)) = true :=
    noAssert_buildSeq fun a ha => by
      rcases List.mem_cons.mp ha with rfl | ha
      · rfl
      · exact hB a ha
  have hspB : noAssert (buildSeq B) = true := noAssert_buildSeq hB
  rw [buildSeq, NM_seq_iff hst hsp]
  constructor
  · rintro ⟨s1, s2, rfl, hs1, hs2⟩
    rw [buildSeq, NM_seq_iff hst hspB] at hs2
    rcases hs2 with ⟨t1, t2, rfl, ht1, ht2⟩
    rw [buildSeq, NM_seq_iff hst hspB]
    exact ⟨s1 ++ t1, t2, by rw [List.append_assoc],
      NM_star_append (show noAssert nonSlash = true from rfl) hs1 ht1, ht2⟩
  · intro h
    exact ⟨[], s, rfl, PM.starNil, h⟩

/-- C6 (counterexample): the claim fails as universally stated.  In
`a***/b` the two stars at positions 1–2 are not followed by `/` (the
next character is `*`), yet replacing them by one `*` yields `a**/b`,
which disagrees on the path `axb` (the replacement welds a new `**/`
token).  Similarly `[**` vs `[*` disagree on `x`, because the unescaped
`[` changes how the emitted `[^/]*` chunks are parsed. -/
theorem claim_C6_counterexample :
    fgMatch "a***/b" "axb" = some true ∧ fgMatch "a**/b" "axb" = some false ∧
    fgMatch "[**" "x" = some true ∧ fgMatch "[*" "x" = some false := by
  refine ⟨by decide, by decide, by decide, by decide⟩

/-- C6 (amended): a dangling `**` behaves exactly as a plain `*`
provided the replacement cannot interact with the surrounding pattern:
the glob contains no regex metacharacter (`( ) [ ] { } \ + ^ $ |`
anywhere in it) and the `**` is followed neither by `/` (that is the
`**/` token) nor by another `*`.  Then the matchers of `u ++ "**" ++ v`
and `u ++ "*" ++ v` agree on every path. -/
theorem claim_C6 (u v : List Char)
    (hu : ∀ c ∈ u, globSafe c = true) (hv : ∀ c ∈ v, globSafe c = true)
    (h1 : ∀ r, v = '/' :: r → False) (h2 : ∀ r, v = '*' :: r → False) :
    ∃ fg1 fg2, make ⟨u ++ '*' :: '*' :: v⟩ = Except.ok fg1 ∧
      make ⟨u ++ '*' :: v⟩ = Except.ok fg2 ∧
      ∀ p : String, fg1.matches p = fg2.matches p := by
  have hstar : globSafe '*' = true := by decide
  have hsafe1 : ∀ c ∈ u ++ '*' :: '*' :: v, globSafe c = true := by
    intro c hc
    rcases List.mem_append.mp hc with hc | hc
    · exact hu c hc
    · rcases List.mem_cons.mp hc with rfl | hc
      · exact hstar
      · rcases List.mem_cons.mp hc with rfl | hc
        · exact hstar
        · exact hv c hc
  have hsafe2 : ∀ c ∈ u ++ '*' :: v, globSafe c = true := by
    intro c hc
    rcases List.mem_append.mp hc with hc | hc
    · exact hu c hc
    · rcases List.mem_cons.mp hc with rfl | hc
      · exact hstar
      · exact hv c hc
  have hp1 := parse_globPattern (u ++ '*' :: '*' :: v) hsafe1
  have hp2 := parse_globPattern (u ++ '*' :: v) hsafe2
  refine ⟨⟨buildSeq (.aStart :: ((chunksOf (u ++ '*' :: '*' :: v)).map Chunk.atom
      ++ [.aEnd]))⟩,
    ⟨buildSeq (.aStart :: ((chunksOf (u ++ '*' :: v)).map Chunk.atom ++ [.aEnd]))⟩,
    ?_, ?_, ?_⟩
  · rw [make, show (String.mk (u ++ '*' :: '*' :: v)).data
        = u ++ '*' :: '*' :: v from rfl, FileGlob.ofChars, hp1]
    rfl
  · rw [make, show (String.mk (u ++ '*' :: v)).data = u ++ '*' :: v from rfl,
      FileGlob.ofChars, hp2]
    rfl
  · intro p
    have hred : ∀ r : Regex, (FileGlob.mk r).matches p = jsTest r p.data :=
      fun _ => rfl
    rw [hred, hred]
    have hnA : ∀ a ∈ (chunksOf (u ++ '*' :: '*' :: v)).map Chunk.atom,
        noAssert a = true := by
      intro a ha
      rcases List.mem_map.mp ha with ⟨ch, _, rfl⟩
      exact chunk_atom_noAssert ch
    have hnB : ∀ a ∈ (chunksOf (u ++ '*' :: v)).map Chunk.atom,
        noAssert a = true := by
      intro a ha
      rcases List.mem_map.mp ha with ⟨ch, _, rfl⟩
      exact chunk_atom_noAssert ch
    rw [← Bool.coe_iff_coe]
    simp only [← List.cons_append]
    rw [jsTest_anchored hnA, jsTest_anchored hnB]
    obtain ⟨hcA, hcB⟩ := chunksOf_split u h1 h2
    rw [hcA, hcB]
    have hAu : ∀ a ∈ (chunksOf u).map Chunk.atom, noAssert a = true := by
      intro a ha
      rcases List.mem_map.mp ha with ⟨ch, _, rfl⟩
      exact chunk_atom_noAssert ch
    have hBs1 : ∀ a ∈ Regex.star nonSlash :: Regex.star nonSlash ::
        (chunksOf v).map Chunk.atom, noAssert a = true := by
      intro a ha
      rcases List.mem_cons.mp ha with rfl | ha
      · rfl
      · rcases List.mem_cons.mp ha with rfl | ha
        · rfl
        · rcases List.mem_map.mp ha with ⟨ch, _, rfl⟩
          exact chunk_atom_noAssert ch
    have hBs2 : ∀ a ∈ Regex.star nonSlash :: (chunksOf v).map Chunk.atom,
        noAssert a = true := by
      intro a ha
      rcases List.mem_cons.mp ha with rfl | ha
      · rfl
      · rcases List.mem_map.mp ha with ⟨ch, _, rfl⟩
        exact chunk_atom_noAssert ch
    have hBv : ∀ a ∈ (chunksOf v).map Chunk.atom, noAssert a = true := by
      intro a ha
      rcases List.mem_map.mp ha with ⟨ch, _, rfl⟩
      exact chunk_atom_noAssert ch
    rw [List.map_append, List.map_cons, List.map_cons,
      List.map_append, List.map_cons]
    rw [show Chunk.atom .clsStar = Regex.star nonSlash from rfl]
    rw [NM_buildSeq_append hAu hBs1, NM_buildSeq_append hAu hBs2]
    constructor
    · rintro ⟨s1, s2, he, hs1, hs2⟩
      exact ⟨s1, s2, he, hs1,
        (NM_two_stars ((chunksOf v).map Chunk.atom) hBv s2).mp hs2⟩
    · rintro ⟨s1, s2, he, hs1, hs2⟩
      exact ⟨s1, s2, he, hs1,
        (NM_two_stars ((chunksOf v).map Chunk.atom) hBv s2).mpr hs2⟩

/-- C6 witness: `x**y` and `x*y` agree; on the path `xaby` both
match. -/
theorem claim_C6_witness :
    ∃ fg1 fg2, make ⟨['x'] ++ '*' :: '*' :: ['y']⟩ = Except.ok fg1 ∧
      make ⟨['x'] ++ '*' :: ['y']⟩ = Except.ok fg2 ∧
      ∀ p : String, fg1.matches p = fg2.matches p :=
  claim_C6 ['x'] ['y'] (by decide) (by decide)
    (by intro r hr; cases hr) (by intro r hr; cases hr)

end Fileglob
